import Mathlib

/-!
# Verification of the camellia enrichment-pipeline scripts

Shallow embedding of the resumable, rate-limited enrichment pipeline
implemented in `icr_match_audit.py`, `scripts/enrich_icr_chinese_name.py`,
`image_enrich_strict.py` and `acs_audit.py`, together with proofs of the
specified properties (resume idempotence, fuzzy-match classification,
rate-limit spacing, cache short-circuit, strategy-chain fallthrough,
checkpoint invariants, mirror selection, probe error containment, and the
frame property of fix application).

Python dictionaries are modelled as association lists with head insertion
(first match wins on lookup, so a re-inserted key shadows the old entry,
matching dict overwrite semantics); Python floats are modelled as rationals;
Python ints as integers.
-/

namespace Camellia

/-- Lookup in an association list modelling a Python dict (`d.get(k)`). -/
def dictGet {β : Type} (m : List (String × β)) (k : String) : Option β :=
  (m.find? (fun p => p.1 == k)).map Prod.snd

/-- Insertion into an association list modelling a Python dict
(`d[k] = v`): head insertion shadows any previous binding. -/
def dictInsert {β : Type} (m : List (String × β)) (k : String) (v : β) :
    List (String × β) :=
  (k, v) :: m

/-- Python truthiness of a value that is either a string or `None`
(`None` and `""` are falsy). -/
def truthyStr : Option String → Bool
  | none => false
  | some s => !(s == "")

/-- Python `a or b` over string-or-None values: the first operand if it is
truthy, otherwise the second. -/
def pyOr (a b : Option String) : Option String :=
  if truthyStr a then a else b

/-- Order-preserving de-duplication (auxiliary, with the set of keys
already emitted). -/
def pyDedupAux (seen : List String) : List String → List String
  | [] => []
  | x :: xs =>
    if seen.contains x then pyDedupAux seen xs
    else x :: pyDedupAux (x :: seen) xs

/-- Order-preserving de-duplication, modelling `dict.fromkeys(xs)`. -/
def pyDedup : List String → List String :=
  pyDedupAux []

/-! ## Fuzzy-match classification (`icr_match_audit.search_icr`, lines 155-189)

`search_icr` scores every candidate returned by the API, sorts the scored
list descending, and classifies by the top score with an ambiguity margin:
`>= 0.95` → exact, `>= 0.6` → ambiguous when the runner-up is within
`0.05` of the top, otherwise fuzzy_match, else no_match.  `best_match` is
the top candidate for all three matched statuses and `None` otherwise. -/

/-- One scored ICR candidate (`scored` entries in `search_icr`). -/
structure Candidate where
  scientific_name : String
  score : ℚ
  deriving DecidableEq, Repr

/-- The status string computed by `search_icr` from the descending-sorted
scored candidate list (lines 164-175 of `icr_match_audit.py`). -/
def matchStatus : List Candidate → String
  | [] => "no_match"
  | top :: rest =>
    if top.score ≥ 95/100 then "exact"
    else if top.score ≥ 6/10 then
      match rest with
      | second :: _ =>
        if second.score ≥ top.score - 5/100 then "ambiguous" else "fuzzy_match"
      | [] => "fuzzy_match"
    else "no_match"

/-- The `best_match` computed by `search_icr`: the top scored candidate when
the status is one of `exact`, `fuzzy_match`, `ambiguous`, else `None`. -/
def matchBest (scored : List Candidate) : Option Candidate :=
  match scored with
  | [] => none
  | top :: _ =>
    if matchStatus scored = "exact" ∨ matchStatus scored = "fuzzy_match" ∨
        matchStatus scored = "ambiguous" then some top
    else none

/-! ## Probe results (`scripts/enrich_icr_chinese_name.py`)

`UrlResult` mirrors the dataclass of the same name; `fetch_one` issues one
GET and converts every transport-layer failure into a `failed` result
instead of raising.  The HTML extraction (`extract_chinese_names`) is kept
abstract, as the pipeline only consumes its resulting name list. -/

/-- The `UrlResult` dataclass of `enrich_icr_chinese_name.py`. -/
structure UrlResult where
  chinese_name : List String
  status : String
  http_status : Option ℤ
  error : String
  fetched_at : String
  deriving DecidableEq, Repr

/-- What one `session.get` in `fetch_one` can come back with: a response
with an HTTP status code and a body, or a raised exception (timeout,
connection failure, ...). -/
inductive FetchAttempt where
  | response (statusCode : ℤ) (body : String)
  | exc (message : String)
  deriving DecidableEq, Repr

/-- `fetch_one` (lines 257-267 of `enrich_icr_chinese_name.py`): non-200
responses and raised exceptions become `failed` results, a 200 response is
`ok` when name extraction finds names and `missing` otherwise.  `extract`
stands for `extract_chinese_names`, `now` for `now_iso()`. -/
def fetchOne (extract : String → List String) (now : String) :
    FetchAttempt → UrlResult
  | .exc e => ⟨[], "failed", none, e, now⟩
  | .response code body =>
    if code = 200 then
      match extract body with
      | [] => ⟨[], "missing", some code, "", now⟩
      | names => ⟨names, "ok", some code, "", now⟩
    else ⟨[], "failed", some code, "HTTP " ++ toString code, now⟩

/-! ## URL checking (`acs_audit.check_url`, lines 66-87) -/

/-- What one `session.get` in `check_url` can come back with. -/
inductive HttpAttempt where
  | response (statusCode : ℤ) (contentLength : ℕ)
  | timeout
  | clientError (message : String)
  | otherError (message : String)
  deriving DecidableEq, Repr

/-- The dict returned by `check_url`. -/
structure CheckResult where
  status : Option ℤ
  content_length : ℕ
  valid : Bool
  error : Option String
  deriving DecidableEq, Repr

/-- `check_url`: every exception path returns a failed-status dict with
`valid = False` instead of propagating; a response is valid iff it is a 200
with a non-empty body. -/
def checkUrl : HttpAttempt → CheckResult
  | .response code len => ⟨some code, len, decide (code = 200 ∧ 0 < len), none⟩
  | .timeout => ⟨none, 0, false, some "timeout"⟩
  | .clientError e => ⟨none, 0, false, some e⟩
  | .otherError e => ⟨none, 0, false, some e⟩

/-! ## The enrichment main loop (`enrich_icr_chinese_name.main`, lines 387-420)

The loop walks `urls` by index.  A unit whose URL is already in the cache
is replayed from the cache without network traffic; otherwise `fetch_one`
runs (modelled by the abstract probe function) and the result is inserted.
After every unit the checkpoint (with `next_index = i + 1`) and cache are
saved.  The state records everything the claims need to observe: the cache,
the cursor, the sequence of `next_index` values passed to
`save_checkpoints`, and which URLs were fetched live. -/

/-- Observable state of the enrichment main loop. -/
structure EnrichState where
  cache : List (String × UrlResult)
  nextIndex : ℕ
  savedIndices : List ℤ
  probedUrls : List String
  deriving DecidableEq, Repr

/-- One iteration of the `while i < total` loop body: cache hit replays the
cached result; cache miss probes the network and stores the result; either
way the cursor advances and the checkpoint is saved with the new cursor. -/
def enrichStep (probe : String → UrlResult) (urls : List String)
    (s : EnrichState) : EnrichState :=
  let url := (urls[s.nextIndex]?).getD ""
  match dictGet s.cache url with
  | some _ =>
    { s with
      nextIndex := s.nextIndex + 1,
      savedIndices := s.savedIndices ++ [(s.nextIndex : ℤ) + 1] }
  | none =>
    { cache := dictInsert s.cache url (probe url),
      nextIndex := s.nextIndex + 1,
      savedIndices := s.savedIndices ++ [(s.nextIndex : ℤ) + 1],
      probedUrls := s.probedUrls ++ [url] }

/-- Run the main loop for at most `fuel` units, stopping when the cursor
reaches `urls.length` (the `while i < total` guard).  `fuel` models the
combination of loop exit and the optional `--max-urls` limit. -/
def enrichRun (probe : String → UrlResult) (urls : List String) :
    ℕ → EnrichState → EnrichState
  | 0, s => s
  | fuel + 1, s =>
    if s.nextIndex < urls.length then
      enrichRun probe urls fuel (enrichStep probe urls s)
    else s

/-- The run set-up of `main` (lines 363-396): on a fresh run (`reset`) the
cache is empty and the cursor is forced to 0; on resume the loaded cache
and cursor are used, the loaded `next_index` is saved once as-is, and the
cursor is clamped into `[0, total]` before the loop starts. -/
def enrichMain (probe : String → UrlResult) (urls : List String)
    (loadedCache : List (String × UrlResult)) (loadedNext : ℤ)
    (reset : Bool) (fuel : ℕ) : EnrichState :=
  let cache0 := if reset then [] else loadedCache
  let firstSave : ℤ := if reset then 0 else loadedNext
  let start : ℕ :=
    if reset then 0 else (max 0 (min loadedNext (urls.length : ℤ))).toNat
  enrichRun probe urls fuel
    { cache := cache0, nextIndex := start, savedIndices := [firstSave],
      probedUrls := [] }

/-! ## The audit main loop (`icr_match_audit.main`, lines 251-298)

This loop walks the fixed `NAMES` list, skipping names already present in
the persisted `completed` dict, and runs `search_icr` (the abstract probe
`α`-valued function) on the rest, saving progress after each name. -/

/-- The `for name in NAMES` loop of `icr_match_audit.main`, with `α` the
type of `search_icr` result dicts. -/
def auditLoop {α : Type} (probe : String → α) :
    List String → List (String × α) → List (String × α)
  | [], completed => completed
  | n :: rest, completed =>
    if (dictGet completed n).isSome then auditLoop probe rest completed
    else auditLoop probe rest (dictInsert completed n (probe n))

/-- The names for which the same loop calls `search_icr` (i.e. issues
network queries): exactly the names not yet in `completed` when their turn
comes. -/
def auditLoopProbed {α : Type} (probe : String → α) :
    List String → List (String × α) → List String
  | [], _ => []
  | n :: rest, completed =>
    if (dictGet completed n).isSome then auditLoopProbed probe rest completed
    else n :: auditLoopProbed probe rest (dictInsert completed n (probe n))

/-! ## ICR dispatch timing (`image_enrich_strict.try_icr`, lines 204-242)

`try_icr` sleeps out the remaining delay against `_last_icr_time` exactly
once, before its variant loop; inside the loop each query variant is
dispatched immediately after the previous one fails, with no further
sleep.  The model records the wall-clock dispatch time of every request a
single `try_icr` call issues when every variant fails, given the duration
each failed request takes. -/

/-- Dispatch time of the first ICR request of a `try_icr` call: the rate
check sleeps until `lastIcr + delay` when less than `delay` has elapsed. -/
def icrFirstDispatch (lastIcr now delay : ℚ) : ℚ :=
  if now - lastIcr < delay then lastIcr + delay else now

/-- Dispatch times of a sequence of back-to-back requests starting at `t`,
each taking the given duration before the next one is dispatched. -/
def dispatchSeq (t : ℚ) : List ℚ → List ℚ
  | [] => []
  | dur :: rest => t :: dispatchSeq (t + dur) rest

/-- The dispatch timestamps of the ICR requests issued by one `try_icr`
call in which every query variant's request fails, with `failDurs` the
duration of each failing request: only the first request waits out the
rate-limit delay. -/
def tryIcrDispatchTimes (lastIcr now delay : ℚ) (failDurs : List ℚ) :
    List ℚ :=
  dispatchSeq (icrFirstDispatch lastIcr now delay) failDurs

/-! ## Checkpoint mirror selection (`load_best_checkpoint`, lines 183-208)

Readable mirrors are collected and the maximum under the Python key
`(int(cp["next_index"]), str(cp["updated_at"]))` is taken; `max` keeps the
first maximal element on full key ties.  When nothing is readable a fresh
checkpoint with `next_index = 0` is created (`load_checkpoint` with
`reset=True`). -/

/-- One parsed checkpoint file (the fields `load_best_checkpoint` reads,
with `setdefault` defaults already applied). -/
structure Checkpoint where
  next_index : ℤ
  updated_at : String
  last_request_ts : ℚ
  deriving DecidableEq, Repr

/-- The Python sort key `(int(cp["next_index"]), str(cp["updated_at"]))`,
compared lexicographically (ISO timestamps compare as plain strings). -/
def cpKey (c : Checkpoint) : ℤ ×ₗ String :=
  toLex (c.next_index, c.updated_at)

/-- Strict comparison of two checkpoints under the Python sort key. -/
def cpKeyLt (a b : Checkpoint) : Prop :=
  cpKey a < cpKey b

instance (a b : Checkpoint) : Decidable (cpKeyLt a b) :=
  inferInstanceAs (Decidable (cpKey a < cpKey b))

/-- Python `max(candidates, key=key)`: scan keeping the current best,
replacing it only on a strictly greater key (so the first of several
key-equal maxima wins). -/
def pickMax (best : Checkpoint) : List Checkpoint → Checkpoint
  | [] => best
  | c :: rest => if cpKeyLt best c then pickMax c rest else pickMax best rest

/-- A fresh checkpoint as built by `load_checkpoint(..., reset=True)`:
cursor 0, last-request timestamp 0, created now. -/
def freshCheckpoint (createdAt : String) : Checkpoint :=
  ⟨0, createdAt, 0⟩

/-- `load_best_checkpoint`: `mirrors` lists the mirror files in path order,
`none` standing for a missing or unreadable (unparsable) file.  On reset, a
fresh checkpoint; otherwise the readable candidate with the maximal
`(next_index, updated_at)` key, or a fresh checkpoint when none is
readable. -/
def loadBestCheckpoint (createdAt : String)
    (mirrors : List (Option Checkpoint)) (reset : Bool) : Checkpoint :=
  if reset then freshCheckpoint createdAt
  else
    match mirrors.reduceOption with
    | [] => freshCheckpoint createdAt
    | c :: rest => pickMax c rest

/-! ## Name normalization and cached lookups (`image_enrich_strict.py`)

`normalize_name` fixes OCR title-casing artifacts by lowercasing a capital
letter that directly follows an apostrophe and stands at a word boundary
(the regex `'([A-Z])\b`).  `try_socal` and `try_icr` consult their JSON
caches (keys lowercased and stripped) before any network traffic, but only
a truthy cached value short-circuits: a key mapping to `null` or `""` falls
through to the live probe exactly like an absent key. -/

/-- Word character for the regex `\b` boundary (letters, digits, `_`). -/
def isWordChar (c : Char) : Bool :=
  c.isAlphanum || c == Char.ofNat 95

/-- Character-list worker for `normalize_name`: replace an apostrophe
followed by a capital at a word boundary (end of string or a non-word
character next) by the apostrophe and the lowercased letter. -/
def fixApos : List Char → List Char
  | [] => []
  | [c] => [c]
  | a :: c :: rest =>
    if a == Char.ofNat 39 && c.isUpper &&
        !((rest.head?.map isWordChar).getD false) then
      a :: c.toLower :: fixApos rest
    else a :: fixApos (c :: rest)

/-- `normalize_name` of `image_enrich_strict.py` (the regex substitution
`'([A-Z])\b` → apostrophe + lowercase letter). -/
def normalizeName (s : String) : String :=
  String.mk (fixApos s.data)

/-- Python `str.lower()` (character-wise lowercasing). -/
def pyLower (s : String) : String :=
  String.mk (s.data.map Char.toLower)

/-- A whitespace character as stripped by Python `str.strip()`. -/
def isPySpace (c : Char) : Bool :=
  c == ' ' || c == '\t' || c == '\n' || c == '\r' ||
    c == Char.ofNat 11 || c == Char.ofNat 12

/-- Python `str.strip()`: drop whitespace from both ends. -/
def pyStrip (s : String) : String :=
  String.mk (((s.data.dropWhile isPySpace).reverse.dropWhile
    isPySpace).reverse)

/-- A cache lookup key: `k.lower().strip()`. -/
def cacheKey (s : String) : String :=
  pyStrip (pyLower s)

/-- Result of one `try_*` strategy call, with the Python pair
`(url-or-None, source-or-None)` plus whether any network request was
issued by this call. -/
structure StratCall where
  url : Option String
  source : Option String
  network : Bool
  deriving DecidableEq, Repr

/-- `try_socal` (lines 94-115): cache check first (normalized key, then raw
key, combined with Python `or`); only a truthy cached value returns without
network.  Otherwise the live HEAD loop runs over the deduplicated variants
`[norm, name]`; `live` abstracts that loop's result (the first variant URL
answering 200, if any). -/
def trySocal (cache : List (String × Option String))
    (live : List String → Option String) (name : String) : StratCall :=
  let norm := normalizeName name
  let cached := pyOr ((dictGet cache (cacheKey norm)).join)
    ((dictGet cache (cacheKey name)).join)
  if truthyStr cached then ⟨cached, some "socal", false⟩
  else
    match live (pyDedup [norm, name]) with
    | some u => ⟨some u, some "socal", true⟩
    | none => ⟨none, none, true⟩

/-- The cache-versus-network behaviour of `try_icr` (lines 204-242): same
shape as `try_socal` with the ICR cache and source tag `"icr"` (the
rate-limit sleep, modelled by `tryIcrDispatchTimes`, happens on the network
path only). -/
def tryIcrLookup (cache : List (String × Option String))
    (live : List String → Option String) (name : String) : StratCall :=
  let norm := normalizeName name
  let cached := pyOr ((dictGet cache (cacheKey norm)).join)
    ((dictGet cache (cacheKey name)).join)
  if truthyStr cached then ⟨cached, some "icr", false⟩
  else
    match live (pyDedup [norm, name]) with
    | some u => ⟨some u, some "icr", true⟩
    | none => ⟨none, none, true⟩

/-! ## Strategy chain (`image_enrich_strict.main`, lines 352-423)

For each not-yet-processed entry the four sources are tried in order:
SoCal HEAD, ACCS search, ACS encyclopedia, ICR API.  The first truthy
URL stops the chain with that strategy's source tag; the sentinel
`"AMBIGUOUS"` from the ACCS search stops it with an ambiguous outcome; a
falsy URL (the `(None, None)` that `try_*` return both on not-found and on
caught errors) falls through to the next strategy. -/

/-- The per-entry outcome recorded into `progress`. -/
inductive StepOutcome where
  | found (image : String) (source : Option String)
  | ambiguous (reason : String)
  | missing
  deriving DecidableEq, Repr

/-- The strategy cascade of `main` for one entry, taking the `(url, source)`
pair each `try_*` call would return for this entry.  The second component
counts how many strategies were invoked (the code calls them strictly in
order, stopping at the first decisive result). -/
def processEntry (r1 r2 r3 r4 : Option String × Option String) :
    StepOutcome × ℕ :=
  if truthyStr r1.1 then (.found (r1.1.getD "") r1.2, 1)
  else if r2.1 = some "AMBIGUOUS" then (.ambiguous "ambiguous ACCS match", 2)
  else if truthyStr r2.1 then (.found (r2.1.getD "") r2.2, 2)
  else if truthyStr r3.1 then (.found (r3.1.getD "") r3.2, 3)
  else if truthyStr r4.1 then (.found (r4.1.getD "") r4.2, 4)
  else (.missing, 4)

/-! ## Fix application (`acs_audit.apply_fixes`, lines 225-258)

`apply_fixes` walks the audit results; for each name whose audit says
`needs_fix` and which indexes into the dataset (last occurrence wins, as in
the dict comprehension `{e["name"]: i ...}`), it overwrites that entry's
`acs_url` with the recovered URL, or with `null` when recovery failed. -/

/-- A dataset entry: name, the `acs_url` field, and all remaining fields
bundled opaquely in `rest`. -/
structure AcsEntry (γ : Type) where
  name : String
  acs_url : Option String
  rest : γ
  deriving DecidableEq, Repr

/-- The audit-result fields `apply_fixes` reads. -/
structure AuditRec where
  action : String
  original_url : String
  error : Option String
  http_status : Option ℤ
  deriving DecidableEq, Repr

/-- The recovery-result fields `apply_fixes` reads. -/
structure RecoveryRec where
  recovered : Bool
  new_url : Option String
  method : Option String
  deriving DecidableEq, Repr

/-- The dict comprehension `{e["name"]: i for i, e in enumerate(data)}`:
for duplicate names the later index wins (head insertion + first-match
lookup). -/
def nameToIdxMap {γ : Type} (data : List (AcsEntry γ)) : List (String × ℕ) :=
  data.enum.foldl (fun m p => dictInsert m p.2.name p.1) []

/-- `data[idx]["acs_url"] = v` on the list model. -/
def setAcsUrl {γ : Type} (data : List (AcsEntry γ)) (idx : ℕ)
    (v : Option String) : List (AcsEntry γ) :=
  match data[idx]? with
  | none => data
  | some e => data.set idx { e with acs_url := v }

/-- The new `acs_url` value `apply_fixes` writes for a broken name:
`rec["new_url"]` when recovery succeeded, else `null`
(`recovery_results.get(name, {})` defaults to not recovered). -/
def fixValue (recovery : List (String × RecoveryRec)) (n : String) :
    Option String :=
  match dictGet recovery n with
  | some r => if r.recovered then r.new_url else none
  | none => none

/-- Whether the audit verdict for a name demands a fix: there is an audit
record for it and its action is `needs_fix`. -/
def auditNeedsFix (audits : List (String × AuditRec)) (n : String) : Bool :=
  match dictGet audits n with
  | some a => a.action == "needs_fix"
  | none => false

/-- The `for name, audit in audit_results.items()` loop of `apply_fixes`,
carried out against the index map computed from the original data. -/
def fixLoop {γ : Type} (idxMap : List (String × ℕ))
    (recovery : List (String × RecoveryRec)) :
    List (String × AuditRec) → List (AcsEntry γ) → List (AcsEntry γ)
  | [], data => data
  | (n, audit) :: rest, data =>
    if audit.action = "needs_fix" then
      match dictGet idxMap n with
      | some idx => fixLoop idxMap recovery rest
          (setAcsUrl data idx (fixValue recovery n))
      | none => fixLoop idxMap recovery rest data
    else fixLoop idxMap recovery rest data

/-- `apply_fixes` restricted to its dataset mutation (the returned
`fixed`/`cleared` report lists are a projection of the same walk). -/
def applyFixes {γ : Type} (data : List (AcsEntry γ))
    (audits : List (String × AuditRec))
    (recovery : List (String × RecoveryRec)) : List (AcsEntry γ) :=
  fixLoop (nameToIdxMap data) recovery audits data

/-! ## Basic dictionary lemmas -/

theorem dictGet_insert {β : Type} (m : List (String × β)) (k k' : String)
    (v : β) :
    dictGet (dictInsert m k v) k' = if k = k' then some v else dictGet m k' := by
  by_cases h : k = k'
  · subst h; simp [dictGet, dictInsert, List.find?_cons]
  · simp [dictGet, dictInsert, List.find?_cons, h]

theorem dictGet_nil {β : Type} (k : String) :
    dictGet ([] : List (String × β)) k = none := rfl

/-! ## Claim C2: fuzzy classification policy -/

/-- C2.  Fuzzy classification policy of `search_icr`: on a non-empty,
descending-sorted scored candidate list, a top score `≥ 0.95` gives
`exact`; a top score in `[0.6, 0.95)` gives `fuzzy_match` with the top
candidate selected unless some further candidate scores within `0.05` of
the top, in which case `ambiguous`; a top score `< 0.6` gives `no_match`.
Concretely, `[0.93, 0.90]` is ambiguous, `[0.93, 0.80]` is a fuzzy match
of the top candidate, `[0.97]` is exact, `[0.4]` is no match. -/
theorem claim_C2_fuzzy_classification (top : Candidate) (rest : List Candidate)
    (hsorted : (top :: rest).Pairwise (fun a b => b.score ≤ a.score)) :
    (95/100 ≤ top.score →
      matchStatus (top :: rest) = "exact" ∧
      matchBest (top :: rest) = some top) ∧
    (6/10 ≤ top.score → top.score < 95/100 →
      (∀ c ∈ rest, c.score < top.score - 5/100) →
      matchStatus (top :: rest) = "fuzzy_match" ∧
      matchBest (top :: rest) = some top) ∧
    (6/10 ≤ top.score → top.score < 95/100 →
      (∃ c ∈ rest, top.score - 5/100 ≤ c.score) →
      matchStatus (top :: rest) = "ambiguous") ∧
    (top.score < 6/10 → matchStatus (top :: rest) = "no_match") ∧
    matchStatus [⟨"a", 93/100⟩, ⟨"b", 90/100⟩] = "ambiguous" ∧
    matchStatus [⟨"a", 93/100⟩, ⟨"b", 80/100⟩] = "fuzzy_match" ∧
    matchBest [⟨"a", 93/100⟩, ⟨"b", 80/100⟩] = some ⟨"a", 93/100⟩ ∧
    matchStatus [⟨"a", 97/100⟩] = "exact" ∧
    matchStatus [⟨"a", 4/10⟩] = "no_match" := by
  rw [List.pairwise_cons] at hsorted
  obtain ⟨-, hrest⟩ := hsorted
  refine ⟨?_, ?_, ?_, ?_, ?_, ?_, ?_, ?_, ?_⟩
  · intro h
    have hs : matchStatus (top :: rest) = "exact" := by
      simp [matchStatus, h]
    exact ⟨hs, by simp [matchBest, hs]⟩
  · intro h1 h2 hall
    have hs : matchStatus (top :: rest) = "fuzzy_match" := by
      cases rest with
      | nil => simp [matchStatus, not_le.mpr h2, h1]
      | cons second tail =>
        have := hall second (by simp)
        simp [matchStatus, not_le.mpr h2, h1, not_le.mpr this]
    exact ⟨hs, by simp [matchBest, hs]⟩
  · intro h1 h2 ⟨c, hc, hcge⟩
    cases rest with
    | nil => simp at hc
    | cons second tail =>
      rw [List.pairwise_cons] at hrest
      have hsecond : top.score - 5/100 ≤ second.score := by
        rcases List.mem_cons.mp hc with h | h
        · exact h ▸ hcge
        · exact le_trans hcge (hrest.1 c h)
      simp [matchStatus, not_le.mpr h2, h1, hsecond]
  · intro h
    have h95 : ¬ 95/100 ≤ top.score := by
      intro hle; linarith
    have h6 : ¬ 6/10 ≤ top.score := not_le.mpr h
    simp [matchStatus, h95, h6]
  · norm_num [matchStatus]
  · norm_num [matchStatus]
  · norm_num [matchBest, matchStatus]
  · norm_num [matchStatus]
  · norm_num [matchStatus]

/-- Witness for C2 at a concrete sorted input. -/
theorem claim_C2_fuzzy_classification_witness :
    matchStatus [⟨"x", 7/10⟩, ⟨"y", 3/10⟩] = "fuzzy_match" ∧
    matchBest [⟨"x", 7/10⟩, ⟨"y", 3/10⟩] = some ⟨"x", 7/10⟩ :=
  (claim_C2_fuzzy_classification ⟨"x", 7/10⟩ [⟨"y", 3/10⟩]
      (by norm_num [List.pairwise_cons])).2.1
    (by norm_num) (by norm_num)
    (by intro c hc; simp at hc; subst hc; norm_num)

/-! ## Claim C3: ICR rate-limit spacing

`try_icr` of `image_enrich_strict.py` enforces the 8-second spacing only
before the first request of a call: when the first query variant's request
fails, the second variant is dispatched immediately afterwards.  The
theorem evaluates the dispatch-time model at the failing input: previous
request at t=0, call entered at t=100 (so no initial sleep is needed),
both variant requests fail after 1 second each.  The two dispatches are 1
second apart, violating the claimed 8-second minimum spacing. -/

/-- C3 (failing evaluation).  One `try_icr` call whose first variant
request fails dispatches its second ICR request 1 second after the first,
even though the configured delay is 8 seconds. -/
theorem claim_C3_rate_limit_gap_violation :
    tryIcrDispatchTimes 0 100 8 [1, 1] = [100, 101] ∧
    (101 : ℚ) - 100 < 8 := by
  constructor
  · norm_num [tryIcrDispatchTimes, icrFirstDispatch, dispatchSeq]
  · norm_num

/-! ## Claim C8: probe error containment -/

/-- C8.  `fetch_one` and `check_url` convert every probe failure — raised
transport exception, non-200 HTTP status, timeout — into an ordinary
failed-status result instead of propagating, and the failed status is
distinct from the `missing` (not-found) status, which only a valid 200
response with no extracted names can produce. -/
theorem claim_C8_probe_error_containment :
    ∀ (extract : String → List String) (now body e msg : String) (code : ℤ),
      (fetchOne extract now (.exc e)).status = "failed" ∧
      (fetchOne extract now (.exc e)).error = e ∧
      ((fetchOne extract now (.response code body)).status =
        if code = 200 then
          if extract body = [] then "missing" else "ok"
        else "failed") ∧
      ((fetchOne extract now (.response 200 body)).status = "missing" ↔
        extract body = []) ∧
      ("failed" : String) ≠ "missing" ∧
      (checkUrl .timeout).valid = false ∧
      (checkUrl .timeout).error = some "timeout" ∧
      (checkUrl (.clientError msg)).valid = false ∧
      (checkUrl (.clientError msg)).error = some msg ∧
      (checkUrl (.otherError msg)).valid = false ∧
      (checkUrl (.otherError msg)).error = some msg := by
  intro extract now body e msg code
  refine ⟨rfl, rfl, ?_, ?_, by decide, rfl, rfl, rfl, rfl, rfl, rfl⟩
  · by_cases hc : code = 200
    · subst hc
      cases h : extract body <;> simp [fetchOne, h]
    · simp [fetchOne, hc]
  · cases h : extract body <;> simp [fetchOne, h]

/-! ## Enrichment-loop lemmas -/

theorem enrichStep_nextIndex (probe : String → UrlResult) (urls : List String)
    (s : EnrichState) :
    (enrichStep probe urls s).nextIndex = s.nextIndex + 1 := by
  cases h : dictGet s.cache ((urls[s.nextIndex]?).getD "") <;>
    simp [enrichStep, h]

theorem enrichStep_saves (probe : String → UrlResult) (urls : List String)
    (s : EnrichState) :
    (enrichStep probe urls s).savedIndices =
      s.savedIndices ++ [(s.nextIndex : ℤ) + 1] := by
  cases h : dictGet s.cache ((urls[s.nextIndex]?).getD "") <;>
    simp [enrichStep, h]

theorem enrichStep_core (probe : String → UrlResult) (urls : List String)
    (s s' : EnrichState) (hc : s.cache = s'.cache)
    (hn : s.nextIndex = s'.nextIndex) :
    (enrichStep probe urls s).cache = (enrichStep probe urls s').cache ∧
    (enrichStep probe urls s).nextIndex =
      (enrichStep probe urls s').nextIndex := by
  have hkey : (urls[s.nextIndex]?).getD "" = (urls[s'.nextIndex]?).getD "" := by
    rw [hn]
  have hsc : dictGet s.cache ((urls[s.nextIndex]?).getD "") =
      dictGet s'.cache ((urls[s'.nextIndex]?).getD "") := by rw [hc, hkey]
  cases h : dictGet s'.cache ((urls[s'.nextIndex]?).getD "") <;>
    simp [enrichStep, hsc, h, hc, hn, hkey]

theorem enrichRun_stable (probe : String → UrlResult) (urls : List String)
    (n : ℕ) (s : EnrichState) (h : ¬ s.nextIndex < urls.length) :
    enrichRun probe urls n s = s := by
  cases n with
  | zero => rfl
  | succ m => simp [enrichRun, h]

theorem enrichRun_add (probe : String → UrlResult) (urls : List String)
    (m n : ℕ) (s : EnrichState) :
    enrichRun probe urls (m + n) s =
      enrichRun probe urls n (enrichRun probe urls m s) := by
  induction m generalizing s with
  | zero => simp [enrichRun]
  | succ k ih =>
    by_cases h : s.nextIndex < urls.length
    · have he : k + 1 + n = (k + n) + 1 := by omega
      rw [he]
      simp only [enrichRun, if_pos h]
      exact ih (enrichStep probe urls s)
    · rw [enrichRun_stable probe urls (k + 1 + n) s h,
        enrichRun_stable probe urls (k + 1) s h,
        enrichRun_stable probe urls n s h]

theorem enrichRun_nextIndex (probe : String → UrlResult) (urls : List String)
    (n : ℕ) (s : EnrichState) (h : s.nextIndex + n ≤ urls.length) :
    (enrichRun probe urls n s).nextIndex = s.nextIndex + n := by
  induction n generalizing s with
  | zero => simp [enrichRun]
  | succ k ih =>
    have hg : s.nextIndex < urls.length := by omega
    simp only [enrichRun, if_pos hg]
    rw [ih (enrichStep probe urls s) (by rw [enrichStep_nextIndex]; omega),
      enrichStep_nextIndex]
    omega

theorem enrichRun_core (probe : String → UrlResult) (urls : List String)
    (n : ℕ) (s s' : EnrichState) (hc : s.cache = s'.cache)
    (hn : s.nextIndex = s'.nextIndex) :
    (enrichRun probe urls n s).cache = (enrichRun probe urls n s').cache ∧
    (enrichRun probe urls n s).nextIndex =
      (enrichRun probe urls n s').nextIndex := by
  induction n generalizing s s' with
  | zero => exact ⟨hc, hn⟩
  | succ k ih =>
    by_cases h : s.nextIndex < urls.length
    · have h' : s'.nextIndex < urls.length := hn ▸ h
      simp only [enrichRun, if_pos h, if_pos h']
      exact ih _ _ (enrichStep_core probe urls s s' hc hn).1
        (enrichStep_core probe urls s s' hc hn).2
    · have h' : ¬ s'.nextIndex < urls.length := hn ▸ h
      rw [enrichRun_stable probe urls _ s h,
        enrichRun_stable probe urls _ s' h']
      exact ⟨hc, hn⟩

theorem enrichRun_cache_preserved (probe : String → UrlResult)
    (urls : List String) (n : ℕ) (s : EnrichState) (url : String)
    (r : UrlResult) (h : dictGet s.cache url = some r) :
    dictGet (enrichRun probe urls n s).cache url = some r ∧
    (url ∈ (enrichRun probe urls n s).probedUrls ↔ url ∈ s.probedUrls) := by
  induction n generalizing s with
  | zero => exact ⟨h, Iff.rfl⟩
  | succ k ih =>
    by_cases hg : s.nextIndex < urls.length
    · simp only [enrichRun, if_pos hg]
      cases hc : dictGet s.cache ((urls[s.nextIndex]?).getD "") with
      | some v =>
        have hcache : (enrichStep probe urls s).cache = s.cache := by
          simp [enrichStep, hc]
        have hprobed : (enrichStep probe urls s).probedUrls = s.probedUrls := by
          simp [enrichStep, hc]
        have := ih (enrichStep probe urls s) (by rw [hcache]; exact h)
        exact ⟨this.1, by rw [this.2, hprobed]⟩
      | none =>
        have hne : (urls[s.nextIndex]?).getD "" ≠ url := by
          intro he; rw [he, h] at hc; cases hc
        have hcache : (enrichStep probe urls s).cache =
            dictInsert s.cache ((urls[s.nextIndex]?).getD "")
              (probe ((urls[s.nextIndex]?).getD "")) := by
          simp [enrichStep, hc]
        have hprobed : (enrichStep probe urls s).probedUrls =
            s.probedUrls ++ [(urls[s.nextIndex]?).getD ""] := by
          simp [enrichStep, hc]
        have hget : dictGet (enrichStep probe urls s).cache url = some r := by
          rw [hcache, dictGet_insert, if_neg hne]; exact h
        have := ih (enrichStep probe urls s) hget
        refine ⟨this.1, ?_⟩
        rw [this.2, hprobed]
        simp [hne.symm]
    · rw [enrichRun_stable probe urls _ s hg]
      exact ⟨h, Iff.rfl⟩

theorem enrichRun_saves_chain (probe : String → UrlResult)
    (urls : List String) (n : ℕ) (s : EnrichState)
    (h1 : s.savedIndices.Chain' (· ≤ ·))
    (h2 : ∀ v ∈ s.savedIndices, v ≤ (s.nextIndex : ℤ)) :
    (enrichRun probe urls n s).savedIndices.Chain' (· ≤ ·) := by
  induction n generalizing s with
  | zero => exact h1
  | succ k ih =>
    by_cases hg : s.nextIndex < urls.length
    · simp only [enrichRun, if_pos hg]
      apply ih
      · rw [enrichStep_saves]
        refine List.chain'_append.mpr ⟨h1, List.chain'_singleton _, ?_⟩
        intro x hx y hy
        simp only [List.head?_cons, Option.mem_def, Option.some.injEq] at hy
        obtain ⟨hne, hxl⟩ := List.mem_getLast?_eq_getLast hx
        subst hy
        have hxmem : x ∈ s.savedIndices := hxl ▸ List.getLast_mem hne
        have := h2 x hxmem
        omega
      · intro v hv
        rw [enrichStep_saves] at hv
        rw [enrichStep_nextIndex]
        rcases List.mem_append.mp hv with hv | hv
        · have := h2 v hv; push_cast; omega
        · simp at hv; subst hv; push_cast; omega
    · rw [enrichRun_stable probe urls _ s hg]
      exact h1

theorem enrichRun_saves_bounds (probe : String → UrlResult)
    (urls : List String) (n : ℕ) (s : EnrichState)
    (h : ∀ v ∈ s.savedIndices, 0 ≤ v ∧ v ≤ (urls.length : ℤ)) :
    ∀ v ∈ (enrichRun probe urls n s).savedIndices,
      0 ≤ v ∧ v ≤ (urls.length : ℤ) := by
  induction n generalizing s with
  | zero => exact h
  | succ k ih =>
    by_cases hg : s.nextIndex < urls.length
    · simp only [enrichRun, if_pos hg]
      apply ih
      intro v hv
      rw [enrichStep_saves] at hv
      rcases List.mem_append.mp hv with hv | hv
      · exact h v hv
      · simp at hv; subst hv
        constructor
        · positivity
        · omega
    · rw [enrichRun_stable probe urls _ s hg]
      exact h

/-! ## Audit-loop lemmas -/

theorem auditLoop_append {α : Type} (p : String → α) (l1 l2 : List String)
    (c : List (String × α)) :
    auditLoop p (l1 ++ l2) c = auditLoop p l2 (auditLoop p l1 c) := by
  induction l1 generalizing c with
  | nil => rfl
  | cons n rest ih =>
    by_cases h : (dictGet c n).isSome <;> simp [auditLoop, h, ih]

theorem auditLoop_isSome {α : Type} (p : String → α) (l : List String)
    (c : List (String × α)) (n : String)
    (h : n ∈ l ∨ (dictGet c n).isSome) :
    (dictGet (auditLoop p l c) n).isSome := by
  induction l generalizing c with
  | nil =>
    rcases h with h | h
    · simp at h
    · exact h
  | cons m rest ih =>
    by_cases hm : (dictGet c m).isSome
    · simp only [auditLoop, if_pos hm]
      apply ih
      rcases h with h | h
      · rcases List.mem_cons.mp h with h | h
        · right; exact h ▸ hm
        · left; exact h
      · right; exact h
    · simp only [auditLoop, if_neg hm]
      apply ih
      rcases h with h | h
      · rcases List.mem_cons.mp h with h | h
        · right; subst h; simp [dictGet_insert]
        · left; exact h
      · right
        rw [dictGet_insert]
        by_cases he : m = n <;> simp [he, h]

theorem auditLoop_skip {α : Type} (p : String → α) (l : List String)
    (c : List (String × α)) (h : ∀ n ∈ l, (dictGet c n).isSome) :
    auditLoop p l c = c := by
  induction l with
  | nil => rfl
  | cons m rest ih =>
    simp only [auditLoop, if_pos (h m (by simp))]
    exact ih (fun n hn => h n (by simp [hn]))

theorem auditLoop_get_preserved {α : Type} (p : String → α) (l : List String)
    (c : List (String × α)) (n : String) (v : α)
    (h : dictGet c n = some v) :
    dictGet (auditLoop p l c) n = some v := by
  induction l generalizing c with
  | nil => exact h
  | cons m rest ih =>
    by_cases hm : (dictGet c m).isSome
    · simp only [auditLoop, if_pos hm]; exact ih c h
    · simp only [auditLoop, if_neg hm]
      apply ih
      rw [dictGet_insert]
      have hne : m ≠ n := by
        intro he; subst he; rw [h] at hm; simp at hm
      rw [if_neg hne]; exact h

theorem auditLoopProbed_not_mem {α : Type} (p : String → α) (l : List String)
    (c : List (String × α)) (n : String) (h : (dictGet c n).isSome) :
    n ∉ auditLoopProbed p l c := by
  induction l generalizing c with
  | nil => simp [auditLoopProbed]
  | cons m rest ih =>
    by_cases hm : (dictGet c m).isSome
    · simp only [auditLoopProbed, if_pos hm]; exact ih c h
    · simp only [auditLoopProbed, if_neg hm]
      have hne : n ≠ m := by
        intro he; subst he; rw [Option.isSome_iff_exists] at h
        obtain ⟨v, hv⟩ := h; rw [hv] at hm; simp at hm
      intro hmem
      rcases List.mem_cons.mp hmem with he | hmem
      · exact hne he
      · refine ih (dictInsert c m (p m)) ?_ hmem
        rw [dictGet_insert]
        by_cases he : m = n <;> simp [he, h]

theorem enrichMain_true_eq (probe : String → UrlResult) (urls : List String)
    (loadedCache : List (String × UrlResult)) (loadedNext : ℤ) (fuel : ℕ) :
    enrichMain probe urls loadedCache loadedNext true fuel =
      enrichRun probe urls fuel
        { cache := [], nextIndex := 0, savedIndices := [0],
          probedUrls := [] } := rfl

theorem enrichMain_false_eq (probe : String → UrlResult) (urls : List String)
    (loadedCache : List (String × UrlResult)) (loadedNext : ℤ) (fuel : ℕ) :
    enrichMain probe urls loadedCache loadedNext false fuel =
      enrichRun probe urls fuel
        { cache := loadedCache,
          nextIndex := (max 0 (min loadedNext (urls.length : ℤ))).toNat,
          savedIndices := [loadedNext], probedUrls := [] } := rfl

/-! ## Claim C1: idempotent resume -/

/-- C1.  Running the pipeline loop to completion in one uninterrupted pass
produces exactly the same final per-unit outcome map as stopping after any
prefix of units, persisting the progress/cache state, and resuming from the
persisted state: for the enrichment loop (cache plus cursor checkpoint,
resumed through `enrichMain` with `resume=True`), and for the audit loop
(`completed` progress dict, resumed by re-scanning the name list), for any
fixed probe-result function. -/
theorem claim_C1_idempotent_resume (probe : String → UrlResult)
    (urls : List String) (k : ℕ) (hk : k ≤ urls.length)
    {α : Type} (auditProbe : String → α) (names : List String) (j : ℕ) :
    ((enrichMain probe urls
        (enrichMain probe urls [] 0 true k).cache
        ((enrichMain probe urls [] 0 true k).nextIndex : ℤ)
        false urls.length).cache =
      (enrichMain probe urls [] 0 true urls.length).cache) ∧
    (∀ u, dictGet (enrichMain probe urls
          (enrichMain probe urls [] 0 true k).cache
          ((enrichMain probe urls [] 0 true k).nextIndex : ℤ)
          false urls.length).cache u =
        dictGet (enrichMain probe urls [] 0 true urls.length).cache u) ∧
    (auditLoop auditProbe names (auditLoop auditProbe (names.take j) []) =
      auditLoop auditProbe names []) := by
  have hmain : ∀ fuel : ℕ, enrichMain probe urls [] 0 true fuel =
      enrichRun probe urls fuel
        { cache := [], nextIndex := 0, savedIndices := [0], probedUrls := [] } := by
    intro fuel; simp [enrichMain]
  have hcacheEq : (enrichMain probe urls
      (enrichMain probe urls [] 0 true k).cache
      ((enrichMain probe urls [] 0 true k).nextIndex : ℤ)
      false urls.length).cache =
      (enrichMain probe urls [] 0 true urls.length).cache := by
    set s0 : EnrichState :=
      { cache := [], nextIndex := 0, savedIndices := [0], probedUrls := [] }
      with hs0
    have hsk : enrichMain probe urls [] 0 true k = enrichRun probe urls k s0 :=
      hmain k
    set sk := enrichRun probe urls k s0 with hskdef
    have hknext : sk.nextIndex = k := by
      rw [hskdef, enrichRun_nextIndex probe urls k s0 (by simp [hs0]; omega)]
      simp [hs0]
    have hstart : ((max 0 (min (sk.nextIndex : ℤ) (urls.length : ℤ))).toNat) =
        sk.nextIndex := by
      rw [hknext]; omega
    have hres : enrichMain probe urls sk.cache (sk.nextIndex : ℤ)
        false urls.length =
        enrichRun probe urls urls.length
          { cache := sk.cache, nextIndex := sk.nextIndex,
            savedIndices := [(sk.nextIndex : ℤ)], probedUrls := [] } := by
      rw [enrichMain_false_eq, hstart]
    rw [hsk, hres, hmain urls.length]
    have hcore := enrichRun_core probe urls urls.length
      { cache := sk.cache, nextIndex := sk.nextIndex,
        savedIndices := [(sk.nextIndex : ℤ)], probedUrls := [] } sk rfl rfl
    rw [hcore.1]
    have hsplit1 : enrichRun probe urls urls.length s0 =
        enrichRun probe urls (urls.length - k) sk := by
      conv_lhs => rw [show urls.length = k + (urls.length - k) by omega]
      rw [enrichRun_add, ← hskdef]
    have hmid : (enrichRun probe urls (urls.length - k) sk).nextIndex =
        urls.length := by
      rw [enrichRun_nextIndex probe urls (urls.length - k) sk (by omega)]
      omega
    have hsplit2 : enrichRun probe urls urls.length sk =
        enrichRun probe urls (urls.length - k) sk := by
      conv_lhs => rw [show urls.length = (urls.length - k) + k by omega]
      rw [enrichRun_add]
      exact enrichRun_stable probe urls k
        (enrichRun probe urls (urls.length - k) sk) (by rw [hmid]; omega)
    rw [hsplit2, hsplit1]
  refine ⟨hcacheEq, fun u => by rw [hcacheEq], ?_⟩
  have hC : ∀ m ∈ names.take j,
      (dictGet (auditLoop auditProbe (names.take j)
        ([] : List (String × α))) m).isSome := by
    intro m hm
    exact auditLoop_isSome auditProbe (names.take j) [] m (Or.inl hm)
  have hsplit : ∀ c : List (String × α),
      auditLoop auditProbe names c =
        auditLoop auditProbe (names.drop j)
          (auditLoop auditProbe (names.take j) c) := by
    intro c
    conv_lhs => rw [← List.take_append_drop j names]
    rw [auditLoop_append]
  rw [hsplit (auditLoop auditProbe (names.take j) []), hsplit [],
    auditLoop_skip auditProbe (names.take j) _ hC]

/-- Witness for C1: a two-unit work list interrupted after one unit. -/
theorem claim_C1_idempotent_resume_witness :
    (1 : ℕ) ≤ (["u1", "u2"] : List String).length ∧
    ((enrichMain (fun u => ⟨[u], "ok", some 200, "", "t"⟩) ["u1", "u2"]
        (enrichMain (fun u => ⟨[u], "ok", some 200, "", "t"⟩) ["u1", "u2"]
          [] 0 true 1).cache
        ((enrichMain (fun u => ⟨[u], "ok", some 200, "", "t"⟩) ["u1", "u2"]
          [] 0 true 1).nextIndex : ℤ)
        false 2).cache =
      (enrichMain (fun u => ⟨[u], "ok", some 200, "", "t"⟩) ["u1", "u2"]
        [] 0 true 2).cache) :=
  ⟨by decide,
    (claim_C1_idempotent_resume (fun u => ⟨[u], "ok", some 200, "", "t"⟩)
      ["u1", "u2"] 1 (by decide) (fun n => n) ["a"] 0).1⟩

/-! ## Claim C4: cache short-circuit -/

/-- C4.  A work-unit key present in the loaded cache/progress store is
never probed over the network during the run, and the final outcome
recorded for it is the cached entry unchanged: for the enrichment loop
(resumed with the loaded cache) and for the audit loop. -/
theorem claim_C4_cache_short_circuit (probe : String → UrlResult)
    (urls : List String) (loadedCache : List (String × UrlResult))
    (loadedNext : ℤ) (fuel : ℕ) (url : String) (r : UrlResult)
    (hc : dictGet loadedCache url = some r)
    {α : Type} (auditProbe : String → α) (names : List String)
    (completed : List (String × α)) (n : String) (v : α)
    (hn : dictGet completed n = some v) :
    (dictGet (enrichMain probe urls loadedCache loadedNext
        false fuel).cache url = some r) ∧
    (url ∉ (enrichMain probe urls loadedCache loadedNext
        false fuel).probedUrls) ∧
    (dictGet (auditLoop auditProbe names completed) n = some v) ∧
    (n ∉ auditLoopProbed auditProbe names completed) := by
  have hres : enrichMain probe urls loadedCache loadedNext false fuel =
      enrichRun probe urls fuel
        { cache := loadedCache,
          nextIndex := (max 0 (min loadedNext (urls.length : ℤ))).toNat,
          savedIndices := [loadedNext], probedUrls := [] } := by
    simp [enrichMain]
  have hpres := enrichRun_cache_preserved probe urls fuel
    { cache := loadedCache,
      nextIndex := (max 0 (min loadedNext (urls.length : ℤ))).toNat,
      savedIndices := [loadedNext], probedUrls := [] } url r hc
  refine ⟨by rw [hres]; exact hpres.1, by rw [hres]; simpa using hpres.2, ?_, ?_⟩
  · exact auditLoop_get_preserved auditProbe names completed n v hn
  · exact auditLoopProbed_not_mem auditProbe names completed n
      (by simp [hn])

/-- Witness for C4 at a concrete cached key. -/
theorem claim_C4_cache_short_circuit_witness :
    (dictGet (enrichMain (fun _ => ⟨[], "missing", some 200, "", "t"⟩)
        ["u1"] [("u1", ⟨["甲"], "ok", some 200, "", "t0"⟩)] 0
        false 1).cache "u1" = some ⟨["甲"], "ok", some 200, "", "t0"⟩) ∧
    ("u1" ∉ (enrichMain (fun _ => ⟨[], "missing", some 200, "", "t"⟩)
        ["u1"] [("u1", ⟨["甲"], "ok", some 200, "", "t0"⟩)] 0
        false 1).probedUrls) :=
  ⟨(claim_C4_cache_short_circuit _ ["u1"] _ 0 1 "u1" _ (by decide)
      (fun n => n) [] [("a", "b")] "a" "b" (by decide)).1,
    (claim_C4_cache_short_circuit _ ["u1"] _ 0 1 "u1"
        ⟨["甲"], "ok", some 200, "", "t0"⟩ (by decide)
      (fun n => n) [] [("a", "b")] "a" "b" (by decide)).2.1⟩

/-! ## Claim C6: checkpoint cursor invariant and monotonicity -/

/-- C6.  The checkpoint cursor: after processing `N` units from a fresh
start at index 0 the cursor equals `N`; every `next_index` value saved
during a run (whose loaded checkpoint cursor is within `[0, total]`) lies
in `[0, total_units]`; and the sequence of saved `next_index` values within
one run is non-decreasing. -/
theorem claim_C6_checkpoint_cursor (probe : String → UrlResult)
    (urls : List String) (loadedCache : List (String × UrlResult))
    (loadedNext : ℤ) (reset : Bool) (fuel N : ℕ)
    (hN : N ≤ urls.length) (h0 : 0 ≤ loadedNext)
    (h1 : loadedNext ≤ (urls.length : ℤ)) :
    ((enrichMain probe urls [] 0 true N).nextIndex = N) ∧
    (∀ v ∈ (enrichMain probe urls loadedCache loadedNext
        reset fuel).savedIndices, 0 ≤ v ∧ v ≤ (urls.length : ℤ)) ∧
    ((enrichMain probe urls loadedCache loadedNext
        reset fuel).savedIndices.Chain' (· ≤ ·)) := by
  refine ⟨?_, ?_, ?_⟩
  · have : enrichMain probe urls [] 0 true N = enrichRun probe urls N
        { cache := [], nextIndex := 0, savedIndices := [0],
          probedUrls := [] } := by
      simp [enrichMain]
    rw [this, enrichRun_nextIndex probe urls N _ (by simpa using hN)]
    simp
  · cases reset with
    | true =>
      have : enrichMain probe urls loadedCache loadedNext true fuel =
          enrichRun probe urls fuel
            { cache := [], nextIndex := 0, savedIndices := [0],
              probedUrls := [] } := by
        simp [enrichMain]
      rw [this]
      apply enrichRun_saves_bounds
      intro v hv; simp at hv; subst hv
      exact ⟨le_refl 0, by positivity⟩
    | false =>
      have : enrichMain probe urls loadedCache loadedNext false fuel =
          enrichRun probe urls fuel
            { cache := loadedCache,
              nextIndex := (max 0 (min loadedNext (urls.length : ℤ))).toNat,
              savedIndices := [loadedNext], probedUrls := [] } := by
        simp [enrichMain]
      rw [this]
      apply enrichRun_saves_bounds
      intro v hv; simp at hv; subst hv
      exact ⟨h0, h1⟩
  · cases reset with
    | true =>
      have : enrichMain probe urls loadedCache loadedNext true fuel =
          enrichRun probe urls fuel
            { cache := [], nextIndex := 0, savedIndices := [0],
              probedUrls := [] } := by
        simp [enrichMain]
      rw [this]
      apply enrichRun_saves_chain
      · exact List.chain'_singleton _
      · intro v hv; simp at hv; subst hv; simp
    | false =>
      have : enrichMain probe urls loadedCache loadedNext false fuel =
          enrichRun probe urls fuel
            { cache := loadedCache,
              nextIndex := (max 0 (min loadedNext (urls.length : ℤ))).toNat,
              savedIndices := [loadedNext], probedUrls := [] } := by
        simp [enrichMain]
      rw [this]
      apply enrichRun_saves_chain
      · exact List.chain'_singleton _
      · intro v hv; simp at hv; subst hv
        simp only []
        omega

/-- Witness for C6 at a concrete two-unit run resumed from cursor 1. -/
theorem claim_C6_checkpoint_cursor_witness :
    ((enrichMain (fun u => ⟨[u], "ok", some 200, "", "t"⟩) ["u1", "u2"]
        [] 0 true 2).nextIndex = 2) ∧
    (∀ v ∈ (enrichMain (fun u => ⟨[u], "ok", some 200, "", "t"⟩)
        ["u1", "u2"] [] 1 false 2).savedIndices,
      0 ≤ v ∧ v ≤ ((["u1", "u2"] : List String).length : ℤ)) :=
  ⟨(claim_C6_checkpoint_cursor (fun u => ⟨[u], "ok", some 200, "", "t"⟩)
      ["u1", "u2"] [] 1 false 2 2 (by decide) (by decide) (by decide)).1,
    (claim_C6_checkpoint_cursor (fun u => ⟨[u], "ok", some 200, "", "t"⟩)
      ["u1", "u2"] [] 1 false 2 2 (by decide) (by decide) (by decide)).2.1⟩

/-! ## Claim C5: strategy-chain fallthrough and stopping -/

/-- C5.  The strategy cascade of `image_enrich_strict.main` stops at the
first strategy returning a decisive result: a truthy URL gives a `found`
outcome carrying that strategy's source tag and no later strategy is
invoked; the ACCS sentinel gives an `ambiguous` outcome after exactly two
strategies; a falsy URL (the encoding of both NotFound and Error) falls
through to the next strategy; exhausting all four gives `missing`.  In
particular, strategy 1 NotFound plus strategy 2 Found yields strategy 2's
tag with strategies 3 and 4 never invoked. -/
theorem claim_C5_strategy_fallthrough
    (r1 r2 r3 r4 : Option String × Option String) (u : String)
    (hu : u ≠ "") :
    (r1.1 = some u → processEntry r1 r2 r3 r4 = (.found u r1.2, 1)) ∧
    (truthyStr r1.1 = false → r2.1 = some "AMBIGUOUS" →
      processEntry r1 r2 r3 r4 = (.ambiguous "ambiguous ACCS match", 2)) ∧
    (truthyStr r1.1 = false → r2.1 = some u → u ≠ "AMBIGUOUS" →
      processEntry r1 r2 r3 r4 = (.found u r2.2, 2)) ∧
    (truthyStr r1.1 = false → truthyStr r2.1 = false → r3.1 = some u →
      processEntry r1 r2 r3 r4 = (.found u r3.2, 3)) ∧
    (truthyStr r1.1 = false → truthyStr r2.1 = false →
      truthyStr r3.1 = false → r4.1 = some u →
      processEntry r1 r2 r3 r4 = (.found u r4.2, 4)) ∧
    (truthyStr r1.1 = false → truthyStr r2.1 = false →
      truthyStr r3.1 = false → truthyStr r4.1 = false →
      processEntry r1 r2 r3 r4 = (.missing, 4)) ∧
    (processEntry (none, none) (some "http://img/x.jpg", some "accs")
      (some "http://img/y.jpg", some "acs") (none, none) =
      (.found "http://img/x.jpg" (some "accs"), 2)) := by
  have hsent : ∀ x : Option String, truthyStr x = false →
      ¬ x = some "AMBIGUOUS" := by
    intro x hx he
    subst he
    simp [truthyStr] at hx
  refine ⟨?_, ?_, ?_, ?_, ?_, ?_, ?_⟩
  · intro h1
    simp [processEntry, h1, truthyStr, hu]
  · intro h1 h2
    simp [processEntry, h1, h2]
  · intro h1 h2 hne
    have hamb : ¬ r2.1 = some "AMBIGUOUS" := by
      rw [h2]; simp [hne]
    have htu : truthyStr (some u) = true := by simp [truthyStr, hu]
    simp [processEntry, h1, h2, hamb, htu, hne]
  · intro h1 h2 h3
    have htu : truthyStr (some u) = true := by simp [truthyStr, hu]
    simp [processEntry, h1, h2, h3, hsent r2.1 h2, htu]
  · intro h1 h2 h3 h4
    have htu : truthyStr (some u) = true := by simp [truthyStr, hu]
    simp [processEntry, h1, h2, h3, h4, hsent r2.1 h2, htu]
  · intro h1 h2 h3 h4
    simp [processEntry, h1, h2, h3, h4, hsent r2.1 h2]
  · simp [processEntry, truthyStr]

/-- Witness for C5: the fallthrough instance at concrete values. -/
theorem claim_C5_strategy_fallthrough_witness :
    processEntry (none, none) (some "http://a", some "accs")
      (some "http://b", some "acs") (none, none) =
      (.found "http://a" (some "accs"), 2) :=
  (claim_C5_strategy_fallthrough (none, none) (some "http://a", some "accs")
      (some "http://b", some "acs") (none, none) "http://a"
      (by decide)).2.2.1 (by decide) (by decide) (by decide)

/-! ## Checkpoint-selection lemmas -/

theorem pickMax_mem (best : Checkpoint) (l : List Checkpoint) :
    pickMax best l = best ∨ pickMax best l ∈ l := by
  induction l generalizing best with
  | nil => left; rfl
  | cons c rest ih =>
    simp only [pickMax]
    by_cases h : cpKeyLt best c
    · rw [if_pos h]
      rcases ih c with h' | h'
      · right; simp [h']
      · right; simp [h']
    · rw [if_neg h]
      rcases ih best with h' | h'
      · left; exact h'
      · right; simp [h']

theorem pickMax_le (best : Checkpoint) (l : List Checkpoint) :
    ∀ c, (c = best ∨ c ∈ l) → cpKey c ≤ cpKey (pickMax best l) := by
  induction l generalizing best with
  | nil =>
    intro c hc
    rcases hc with hc | hc
    · subst hc; exact le_refl _
    · simp at hc
  | cons d rest ih =>
    intro c hc
    simp only [pickMax]
    by_cases h : cpKeyLt best d
    · rw [if_pos h]
      have hlt : cpKey best < cpKey d := h
      rcases hc with hc | hc
      · subst hc
        exact le_trans (le_of_lt hlt) (ih d d (Or.inl rfl))
      · rcases List.mem_cons.mp hc with hc | hc
        · rw [hc]; exact ih d d (Or.inl rfl)
        · exact ih d c (Or.inr hc)
    · rw [if_neg h]
      have hle : cpKey d ≤ cpKey best := not_lt.mp h
      rcases hc with hc | hc
      · rw [hc]; exact ih best best (Or.inl rfl)
      · rcases List.mem_cons.mp hc with hc | hc
        · subst hc; exact le_trans hle (ih best best (Or.inl rfl))
        · exact ih best c (Or.inr hc)

/-! ## Claim C7: checkpoint mirror selection -/

/-- C7.  On a resume, `load_best_checkpoint` returns a checkpoint that is
one of the readable mirrors, whose `next_index` is maximal among them, and
whose `updated_at` is maximal among the mirrors sharing that `next_index`
(ties on `next_index` broken by the latest update timestamp); when no
mirror is readable it returns a fresh checkpoint with `next_index = 0`. -/
theorem claim_C7_checkpoint_mirror_selection (createdAt : String)
    (mirrors : List (Option Checkpoint)) :
    (mirrors.reduceOption = [] →
      loadBestCheckpoint createdAt mirrors false = freshCheckpoint createdAt ∧
      (loadBestCheckpoint createdAt mirrors false).next_index = 0) ∧
    (mirrors.reduceOption ≠ [] →
      loadBestCheckpoint createdAt mirrors false ∈ mirrors.reduceOption ∧
      (∀ c ∈ mirrors.reduceOption,
        c.next_index ≤
          (loadBestCheckpoint createdAt mirrors false).next_index) ∧
      (∀ c ∈ mirrors.reduceOption,
        c.next_index = (loadBestCheckpoint createdAt mirrors false).next_index →
        c.updated_at ≤
          (loadBestCheckpoint createdAt mirrors false).updated_at)) := by
  cases h : mirrors.reduceOption with
  | nil =>
    refine ⟨fun _ => ⟨?_, ?_⟩, fun hne => absurd rfl hne⟩
    · simp [loadBestCheckpoint, h]
    · simp [loadBestCheckpoint, h, freshCheckpoint]
  | cons c rest =>
    refine ⟨fun he => by simp at he, fun _ => ?_⟩
    have hload : loadBestCheckpoint createdAt mirrors false =
        pickMax c rest := by
      simp [loadBestCheckpoint, h]
    rw [hload]
    have hle : ∀ x, x ∈ c :: rest → cpKey x ≤ cpKey (pickMax c rest) := by
      intro x hx
      rcases List.mem_cons.mp hx with hx | hx
      · exact pickMax_le c rest x (Or.inl hx)
      · exact pickMax_le c rest x (Or.inr hx)
    refine ⟨?_, ?_, ?_⟩
    · rcases pickMax_mem c rest with hm | hm
      · simp [hm]
      · simp [hm]
    · intro x hx
      have hx' := hle x hx
      simp only [cpKey] at hx'
      rcases (Prod.Lex.le_iff _ _).mp hx' with hlt | ⟨heq, _⟩
      · exact le_of_lt hlt
      · exact le_of_eq heq
    · intro x hx heq
      have hx' := hle x hx
      simp only [cpKey] at hx'
      rcases (Prod.Lex.le_iff _ _).mp hx' with hlt | ⟨_, hup⟩
      · exfalso
        have hlt' : x.next_index < (pickMax c rest).next_index := hlt
        omega
      · exact hup

/-- Witness for C7 with two readable mirrors and one unreadable one. -/
theorem claim_C7_checkpoint_mirror_selection_witness :
    loadBestCheckpoint "t"
      [some ⟨3, "b", 0⟩, none, some ⟨5, "a", 0⟩] false ∈
      ([some ⟨3, "b", 0⟩, none, some ⟨5, "a", 0⟩] :
        List (Option Checkpoint)).reduceOption :=
  ((claim_C7_checkpoint_mirror_selection "t"
      [some ⟨3, "b", 0⟩, none, some ⟨5, "a", 0⟩]).2 (by decide)).1

/-! ## Claim C9: negative cache entries do not short-circuit -/

/-- C9.  In `try_socal` and `try_icr`, a cache key that is present but
maps to a null/empty value behaves exactly like an absent key: the live
network path runs and the result is the same as with an empty cache; only
a key mapping to a truthy cached URL is returned without network I/O. -/
theorem claim_C9_negative_cache_entries
    (cache : List (String × Option String))
    (live : List String → Option String) (name : String) :
    ((truthyStr ((dictGet cache (cacheKey (normalizeName name))).join) =
        false ∧
      truthyStr ((dictGet cache (cacheKey name)).join) = false) →
      ((trySocal cache live name).network = true ∧
       trySocal cache live name = trySocal [] live name ∧
       (tryIcrLookup cache live name).network = true ∧
       tryIcrLookup cache live name = tryIcrLookup [] live name)) ∧
    (∀ u : String, u ≠ "" →
      pyOr ((dictGet cache (cacheKey (normalizeName name))).join)
        ((dictGet cache (cacheKey name)).join) = some u →
      (trySocal cache live name = ⟨some u, some "socal", false⟩ ∧
       tryIcrLookup cache live name = ⟨some u, some "icr", false⟩)) := by
  constructor
  · rintro ⟨h1, h2⟩
    have hcond : truthyStr
        (pyOr ((dictGet cache (cacheKey (normalizeName name))).join)
          ((dictGet cache (cacheKey name)).join)) = false := by
      unfold pyOr
      rw [h1, if_neg (show ¬ (false = true) by simp)]
      exact h2
    refine ⟨?_, ?_, ?_, ?_⟩
    · simp only [trySocal, hcond]
      cases hl : live (pyDedup [normalizeName name, name]) <;> simp [hl]
    · simp only [trySocal, hcond, dictGet_nil]
      simp [pyOr, truthyStr]
    · simp only [tryIcrLookup, hcond]
      cases hl : live (pyDedup [normalizeName name, name]) <;> simp [hl]
    · simp only [tryIcrLookup, hcond, dictGet_nil]
      simp [pyOr, truthyStr]
  · intro u hu hor
    have hcond : truthyStr
        (pyOr ((dictGet cache (cacheKey (normalizeName name))).join)
          ((dictGet cache (cacheKey name)).join)) = true := by
      rw [hor]; simp [truthyStr, hu]
    have htu : truthyStr (some u) = true := by simp [truthyStr, hu]
    constructor
    · simp only [trySocal, hor, htu]
      simp
    · simp only [tryIcrLookup, hor, htu]
      simp

/-- Witness for C9: a cache whose sole entry for the looked-up key is
`null`, and one whose entry is a truthy URL. -/
theorem claim_C9_negative_cache_entries_witness :
    ((trySocal [("k", none)] (fun _ => some "http://x") "k").network =
      true) ∧
    (trySocal [("k", some "http://y")] (fun _ => some "http://x") "k" =
      ⟨some "http://y", some "socal", false⟩) :=
  ⟨((claim_C9_negative_cache_entries [("k", none)]
        (fun _ => some "http://x") "k").1 ⟨by decide, by decide⟩).1,
    ((claim_C9_negative_cache_entries [("k", some "http://y")]
        (fun _ => some "http://x") "k").2 "http://y" (by decide)
      (by decide)).1⟩

/-! ## Fix-application lemmas (`apply_fixes`) -/

theorem dictGet_eq_none {β : Type} (m : List (String × β)) (n : String)
    (h : n ∉ m.map Prod.fst) : dictGet m n = none := by
  unfold dictGet
  rw [List.find?_eq_none.mpr]
  · rfl
  · intro p hp
    simp only [beq_iff_eq]
    intro he
    exact h (List.mem_map.mpr ⟨p, hp, he⟩)

theorem auditNeedsFix_cons (n : String) (a : AuditRec)
    (rest : List (String × AuditRec)) (m : String) :
    auditNeedsFix ((n, a) :: rest) m =
      if n = m then (a.action == "needs_fix") else auditNeedsFix rest m := by
  unfold auditNeedsFix
  rw [show ((n, a) :: rest : List (String × AuditRec)) = dictInsert rest n a
    from rfl, dictGet_insert]
  by_cases h : n = m <;> simp [h]

theorem setAcsUrl_length {γ : Type} (data : List (AcsEntry γ)) (idx : ℕ)
    (v : Option String) : (setAcsUrl data idx v).length = data.length := by
  unfold setAcsUrl
  cases hd : data[idx]? with
  | none => rfl
  | some e => simp

theorem setAcsUrl_get_ne {γ : Type} (data : List (AcsEntry γ)) (idx j : ℕ)
    (v : Option String) (h : idx ≠ j) :
    (setAcsUrl data idx v)[j]? = data[j]? := by
  unfold setAcsUrl
  cases hd : data[idx]? with
  | none => rfl
  | some e => simp [List.getElem?_set_ne h]

theorem setAcsUrl_get_eq {γ : Type} (data : List (AcsEntry γ)) (idx : ℕ)
    (v : Option String) (e : AcsEntry γ) (h : data[idx]? = some e) :
    (setAcsUrl data idx v)[idx]? = some { e with acs_url := v } := by
  unfold setAcsUrl
  rw [h]
  have hlt : idx < data.length := by
    rcases List.getElem?_eq_some.mp h with ⟨hl, _⟩
    exact hl
  rw [List.getElem?_set_eq_of_lt _ hlt]

theorem nameToIdxMap_sound {γ : Type} (data : List (AcsEntry γ)) (n : String)
    (j : ℕ) (h : dictGet (nameToIdxMap data) n = some j) :
    ∃ e, data[j]? = some e ∧ e.name = n := by
  have hmem : ∀ p ∈ nameToIdxMap data,
      ∃ e, data[p.2]? = some e ∧ e.name = p.1 := by
    unfold nameToIdxMap
    have haux : ∀ (l : List (ℕ × AcsEntry γ)) (acc : List (String × ℕ)),
        (∀ p ∈ acc, ∃ e, data[p.2]? = some e ∧ e.name = p.1) →
        (∀ q ∈ l, data[q.1]? = some q.2) →
        ∀ p ∈ l.foldl (fun m q => dictInsert m q.2.name q.1) acc,
          ∃ e, data[p.2]? = some e ∧ e.name = p.1 := by
      intro l
      induction l with
      | nil => intro acc hacc _ p hp; exact hacc p hp
      | cons q rest ih =>
        intro acc hacc hl p hp
        simp only [List.foldl_cons] at hp
        refine ih (dictInsert acc q.2.name q.1) ?_
          (fun r hr => hl r (by simp [hr])) p hp
        intro r hr
        rcases List.mem_cons.mp hr with hr | hr
        · subst hr
          exact ⟨q.2, hl q (by simp), rfl⟩
        · exact hacc r hr
    apply haux
    · intro p hp; simp at hp
    · intro q hq
      have := List.mem_enum_iff_getElem?.mp hq
      exact this
  unfold dictGet at h
  cases hf : (nameToIdxMap data).find? (fun p => p.1 == n) with
  | none => rw [hf] at h; cases h
  | some p =>
    rw [hf] at h
    simp only [Option.map_some'] at h
    injection h with h
    have hp := List.mem_of_find?_eq_some hf
    have hpred := List.find?_some hf
    simp only [beq_iff_eq] at hpred
    obtain ⟨e, he, hname⟩ := hmem p hp
    refine ⟨e, ?_, by rw [hname, hpred]⟩
    rw [← h]; exact he

theorem fixLoop_length {γ : Type} (idxMap : List (String × ℕ))
    (recovery : List (String × RecoveryRec)) :
    ∀ (audits : List (String × AuditRec)) (data : List (AcsEntry γ)),
      (fixLoop idxMap recovery audits data).length = data.length := by
  intro audits
  induction audits with
  | nil => intro data; rfl
  | cons p rest ih =>
    intro data
    obtain ⟨n, a⟩ := p
    by_cases ha : a.action = "needs_fix"
    · simp only [fixLoop, if_pos ha]
      cases hidx : dictGet idxMap n with
      | some idx => rw [ih, setAcsUrl_length]
      | none => exact ih data
    · simp only [fixLoop, if_neg ha]
      exact ih data

theorem fixLoop_getElem {γ : Type} (idxMap : List (String × ℕ))
    (recovery : List (String × RecoveryRec)) :
    ∀ (audits : List (String × AuditRec)) (data : List (AcsEntry γ)),
      (audits.map Prod.fst).Nodup →
      (∀ n i, dictGet idxMap n = some i →
        ∃ e, data[i]? = some e ∧ e.name = n) →
      ∀ j, (fixLoop idxMap recovery audits data)[j]? =
        (data[j]?).map (fun e =>
          if auditNeedsFix audits e.name = true ∧
              dictGet idxMap e.name = some j
          then { e with acs_url := fixValue recovery e.name } else e) := by
  intro audits
  induction audits with
  | nil =>
    intro data _ _ j
    simp only [fixLoop]
    cases data[j]? <;> simp [auditNeedsFix, dictGet_nil]
  | cons p rest ih =>
    intro data hnd hsound j
    obtain ⟨n, a⟩ := p
    rw [List.map_cons, List.nodup_cons] at hnd
    by_cases ha : a.action = "needs_fix"
    · simp only [fixLoop, if_pos ha]
      cases hidx : dictGet idxMap n with
      | some idx =>
        obtain ⟨e0, he0, hname0⟩ := hsound n idx hidx
        have hsound' : ∀ n' i, dictGet idxMap n' = some i →
            ∃ e, (setAcsUrl data idx (fixValue recovery n))[i]? = some e ∧
              e.name = n' := by
          intro n' i hi
          obtain ⟨e, he, hn⟩ := hsound n' i hi
          by_cases hij : idx = i
          · subst hij
            rw [he0] at he
            injection he with he
            refine ⟨{ e0 with acs_url := fixValue recovery n },
              setAcsUrl_get_eq data idx _ e0 he0, ?_⟩
            show e0.name = n'
            rw [← he] at hn
            exact hn
          · exact ⟨e, by rw [setAcsUrl_get_ne data idx i _ hij]; exact he, hn⟩
        rw [ih (setAcsUrl data idx (fixValue recovery n)) hnd.2 hsound' j]
        by_cases hij : idx = j
        · subst hij
          rw [setAcsUrl_get_eq data idx _ e0 he0, he0]
          have hrest : auditNeedsFix rest n = false := by
            unfold auditNeedsFix
            rw [dictGet_eq_none rest n hnd.1]
          have hcons : auditNeedsFix ((n, a) :: rest) n = true := by
            rw [auditNeedsFix_cons, if_pos rfl]
            simp [ha]
          simp [hname0, hrest, hcons, hidx]
        · rw [setAcsUrl_get_ne data idx j _ hij]
          cases hdj : data[j]? with
          | none => rfl
          | some e =>
            simp only [Option.map_some']
            by_cases hen : e.name = n
            · have hrest : auditNeedsFix rest e.name = false := by
                unfold auditNeedsFix
                rw [hen, dictGet_eq_none rest n hnd.1]
              have hmap : dictGet idxMap e.name = some idx := by
                rw [hen]; exact hidx
              have hnotj : ¬ dictGet idxMap e.name = some j := by
                rw [hmap]
                intro hc
                injection hc with hc
                exact hij hc
              simp [hrest, hnotj]
            · have hsame : auditNeedsFix ((n, a) :: rest) e.name =
                  auditNeedsFix rest e.name := by
                rw [auditNeedsFix_cons, if_neg (fun hc => hen hc.symm)]
              rw [hsame]
      | none =>
        rw [ih data hnd.2 hsound j]
        cases hdj : data[j]? with
        | none => rfl
        | some e =>
          simp only [Option.map_some']
          by_cases hen : e.name = n
          · have hrest : auditNeedsFix rest e.name = false := by
              unfold auditNeedsFix
              rw [hen, dictGet_eq_none rest n hnd.1]
            have hnone : ¬ dictGet idxMap e.name = some j := by
              rw [hen, hidx]
              intro hc; cases hc
            simp [hrest, hnone]
          · have hsame : auditNeedsFix ((n, a) :: rest) e.name =
                auditNeedsFix rest e.name := by
              rw [auditNeedsFix_cons, if_neg (fun hc => hen hc.symm)]
            rw [hsame]
    · simp only [fixLoop, if_neg ha]
      rw [ih data hnd.2 hsound j]
      cases hdj : data[j]? with
      | none => rfl
      | some e =>
        simp only [Option.map_some']
        by_cases hen : e.name = n
        · have hrest : auditNeedsFix rest e.name = false := by
            unfold auditNeedsFix
            rw [hen, dictGet_eq_none rest n hnd.1]
          have hcons : auditNeedsFix ((n, a) :: rest) e.name = false := by
            rw [auditNeedsFix_cons, if_pos (by rw [hen])]
            simp [ha]
          simp [hrest, hcons]
        · have hsame : auditNeedsFix ((n, a) :: rest) e.name =
              auditNeedsFix rest e.name := by
            rw [auditNeedsFix_cons, if_neg (fun hc => hen hc.symm)]
          rw [hsame]

/-! ## Claim C10: frame property of fix application -/

/-- C10.  `apply_fixes` only ever changes the `acs_url` field: the dataset
keeps its length, every entry keeps its name and all non-`acs_url` fields,
an entry whose name has no `needs_fix` audit verdict (action `ok` or no
audit record at all) is returned entirely unchanged, and any entry that
does change carries a `needs_fix` verdict and has its `acs_url` set to the
recovered URL when recovery succeeded and to null otherwise. -/
theorem claim_C10_apply_fixes_frame {γ : Type} (data : List (AcsEntry γ))
    (audits : List (String × AuditRec))
    (recovery : List (String × RecoveryRec))
    (hnd : (audits.map Prod.fst).Nodup) :
    ((applyFixes data audits recovery).length = data.length) ∧
    (∀ (j : ℕ) (e : AcsEntry γ), data[j]? = some e →
      ∃ e2, (applyFixes data audits recovery)[j]? = some e2 ∧
        e2.name = e.name ∧ e2.rest = e.rest) ∧
    (∀ (j : ℕ) (e : AcsEntry γ), data[j]? = some e →
      auditNeedsFix audits e.name = false →
      (applyFixes data audits recovery)[j]? = some e) ∧
    (∀ (j : ℕ) (e e2 : AcsEntry γ), data[j]? = some e →
      (applyFixes data audits recovery)[j]? = some e2 → e2 ≠ e →
      auditNeedsFix audits e.name = true ∧
      e2 = { e with acs_url := fixValue recovery e.name }) := by
  have hchar := fixLoop_getElem (nameToIdxMap data) recovery audits data hnd
    (fun n i hi => nameToIdxMap_sound data n i hi)
  refine ⟨fixLoop_length _ _ audits data, ?_, ?_, ?_⟩
  · intro j e he
    rw [show applyFixes data audits recovery =
      fixLoop (nameToIdxMap data) recovery audits data from rfl, hchar j, he]
    by_cases hc : auditNeedsFix audits e.name = true ∧
        dictGet (nameToIdxMap data) e.name = some j
    · exact ⟨{ e with acs_url := fixValue recovery e.name },
        by simp [hc], rfl, rfl⟩
    · exact ⟨e, by simp [hc], rfl, rfl⟩
  · intro j e he hfix
    rw [show applyFixes data audits recovery =
      fixLoop (nameToIdxMap data) recovery audits data from rfl, hchar j, he]
    simp [hfix]
  · intro j e e2 he he2 hne
    rw [show applyFixes data audits recovery =
      fixLoop (nameToIdxMap data) recovery audits data from rfl,
      hchar j, he] at he2
    simp only [Option.map_some', Option.some.injEq] at he2
    by_cases hc : auditNeedsFix audits e.name = true ∧
        dictGet (nameToIdxMap data) e.name = some j
    · rw [if_pos hc] at he2
      exact ⟨hc.1, he2.symm⟩
    · rw [if_neg hc] at he2
      exact absurd he2.symm hne

/-- Witness for C10: one broken recovered entry, one healthy entry. -/
theorem claim_C10_apply_fixes_frame_witness :
    (applyFixes
      [⟨"a", some "http://old", (0 : ℕ)⟩, ⟨"b", some "http://ok", 1⟩]
      [("a", ⟨"needs_fix", "http://old", none, some 404⟩)]
      [("a", ⟨true, some "http://new", some "deterministic_slug"⟩)]).length =
      ([⟨"a", some "http://old", (0 : ℕ)⟩,
        ⟨"b", some "http://ok", 1⟩] : List (AcsEntry ℕ)).length ∧
    (applyFixes
      [⟨"a", some "http://old", (0 : ℕ)⟩, ⟨"b", some "http://ok", 1⟩]
      [("a", ⟨"needs_fix", "http://old", none, some 404⟩)]
      [("a", ⟨true, some "http://new", some "deterministic_slug"⟩)])[1]? =
      some ⟨"b", some "http://ok", 1⟩ :=
  ⟨(claim_C10_apply_fixes_frame
      [⟨"a", some "http://old", (0 : ℕ)⟩, ⟨"b", some "http://ok", 1⟩]
      [("a", ⟨"needs_fix", "http://old", none, some 404⟩)]
      [("a", ⟨true, some "http://new", some "deterministic_slug"⟩)]
      (by decide)).1,
    (claim_C10_apply_fixes_frame
      [⟨"a", some "http://old", (0 : ℕ)⟩, ⟨"b", some "http://ok", 1⟩]
      [("a", ⟨"needs_fix", "http://old", none, some 404⟩)]
      [("a", ⟨true, some "http://new", some "deterministic_slug"⟩)]
      (by decide)).2.2.1 1 ⟨"b", some "http://ok", 1⟩ (by decide)
      (by decide)⟩

end Camellia
